import Mathlib

/-!
Verification of the Drive Ya Nuts brute-force puzzle solver (src/solver.py).

The program arranges seven hexagonal pieces (one center, six outer) so that
adjacent pieces show matching markings.  We give a shallow embedding of the
solver: a piece is a list of six markings, a board state is a list of seven
pieces (index 0 the center), `deque.rotate()` becomes `rotOne`, the
`itertools.permutations` generator becomes `perms`, and the possibly
non-terminating alignment `while` loop becomes the fuelled `alignLoop`
(fuel 6 suffices because single-step rotation of a six-element deque has
order 6; `none` models divergence).  Printing becomes a pure function from
states to the emitted line, and `main` becomes `mainStates` / `mainLines`,
the sequence of solution states / printed lines in emission order.

A second, lower-level embedding (`Heap`-suffixed definitions, section
`HeapModel`) models Python object identity explicitly: a heap of list cells
addressed by natural-number references, so that the copying performed by
`pieces[:]` and `deque(piece)` — and hence the absence of interference
between candidates and the immutability of the global piece table — can be
stated and proved rather than assumed.
-/

namespace Solver

def NUM_SIDES : Nat := 6

/-- The fixed piece table of the program, verbatim from the source. -/
def pieces : List (List Nat) :=
  [ [1, 5, 3, 2, 6, 4],
    [1, 4, 2, 3, 5, 6],
    [1, 3, 5, 4, 2, 6],
    [1, 3, 5, 2, 4, 6],
    [1, 2, 3, 4, 5, 6],
    [1, 2, 5, 6, 3, 4],
    [1, 6, 5, 4, 3, 2] ]

def NUM_PIECES : Nat := pieces.length

/-- A piece: the cyclic sequence of its six markings, current leading
marking first. -/
abbrev Piece := List Nat

/-- A board state: position 0 is the center, positions 1..6 the outer ring. -/
abbrev BoardState := List Piece

/-- `deque.rotate()`: one rotation step to the right, i.e. the last marking
moves to the front. -/
def rotOne (p : Piece) : Piece :=
  match p.getLast? with
  | none => []
  | some x => x :: p.dropLast

/-- `k` successive `deque.rotate()` steps. -/
def rotN (k : Nat) (p : Piece) : Piece := Nat.rec p (fun _ q => rotOne q) k

/-- `init_state(layout)`: each `collections.deque(piece)` copies the piece's
markings into a fresh deque, so in the value model the state starts out
equal to the layout. -/
def init_state (layout : List Piece) : BoardState :=
  layout.map (fun piece => piece)

/-- All ways to pick one element out of a list, returning the element and
the remaining list, in position order.  Auxiliary for `perms`. -/
def picks {α : Type} : List α → List (α × List α)
  | [] => []
  | x :: xs => (x, xs) :: (picks xs).map (fun q => (q.1, x :: q.2))

/-- Fuelled permutation generator; `fuel` is the length of the list. -/
def permsAux {α : Type} : Nat → List α → List (List α)
  | 0, _ => [[]]
  | n+1, l => (picks l).flatMap (fun q => (permsAux n q.2).map (fun t => q.1 :: t))

/-- `itertools.permutations`: all permutations of `l`, first position varying
slowest, in position (lexicographic index) order. -/
def perms {α : Type} (l : List α) : List (List α) := permsAux l.length l

/-- `necklace_perms(pieces)`: each piece gets one turn at center; of the
remaining six, the first is pinned to outer position 1 and the other five
are permuted over positions 2..6. -/
def necklace_perms (ps : List Piece) : List (List Piece) :=
  (List.range NUM_PIECES).flatMap (fun i =>
    let modified_board := ps.eraseIdx i
    let center := ps.getD i []
    (perms modified_board.tail).map
      (fun trailer => center :: modified_board.headD [] :: trailer))

/-- `get_center_side(piecenum)`: the side of the center touching outer
position `piecenum`. -/
def get_center_side (piecenum : Nat) : Nat := piecenum - 1

/-- `check_piece(state, number)`: compare the right flat of piece `number`
(index 5) with index 1 of its ring neighbour (`number+1`, wrapping 6 to 1). -/
def check_piece (state : BoardState) (number : Nat) : Bool :=
  let piece := state.getD number []
  let right := state.getD (if number < NUM_SIDES then number + 1 else 1) []
  piece.getD 5 0 == right.getD 1 0

/-- `check(state)`: all six outer adjacency comparisons must succeed. -/
def check (state : BoardState) : Bool :=
  (List.range' 1 (NUM_PIECES - 1)).all (fun i => check_piece state i)

/-- Python's `str` of a list of ints, inner part: elements joined by a comma
and a space. -/
def commaJoin : List String → String
  | [] => ""
  | [x] => x
  | x :: y :: xs => x ++ ", " ++ commaJoin (y :: xs)

/-- Python's `str(list(d))` for a deque of ints: bracketed, comma-separated. -/
def pyReprList (p : Piece) : String :=
  "[" ++ commaJoin (p.map (fun n => toString n)) ++ "]"

/-- `print_state(state)`: the seven current marking sequences printed
back-to-back on one line, then a newline. -/
def print_state (state : BoardState) : String :=
  String.join (state.map pyReprList) ++ "\n"

/-- `rotate_center(state)`: rotate the center piece one step. -/
def rotate_center (state : BoardState) : BoardState :=
  state.set 0 (rotOne (state.getD 0 []))

/-- The `while True` loop body of `align_to_center` for one piece: rotate
until the leading marking equals `stop`.  The loop diverges when `stop`
never reaches the front; fuel 6 is exhaustive for six-marking pieces since
rotation has order 6, so `none` models divergence. -/
def alignLoop : Nat → Nat → Piece → Option Piece
  | 0, _, _ => none
  | fuel+1, stop, p =>
    if p.getD 0 0 = stop then some p else alignLoop fuel stop (rotOne p)

/-- The `for pieceidx in range(1, NUM_PIECES)` loop of `align_to_center`,
over an explicit list of indices. -/
def alignAux : List Nat → BoardState → Option BoardState
  | [], st => some st
  | i :: rest, st =>
    match alignLoop 6 ((st.getD 0 []).getD (get_center_side i) 0) (st.getD i []) with
    | none => none
    | some p => alignAux rest (st.set i p)

/-- `align_to_center(state)`: rotate each outer piece until its leading
marking equals the center marking facing it. -/
def align_to_center (state : BoardState) : Option BoardState :=
  alignAux (List.range' 1 (NUM_PIECES - 1)) state

/-- The `for _ in range(NUM_SIDES)` loop of `main` for one candidate:
align, record the state if `check` passes, rotate the center, repeat.
Returns the list of passing states in emission order. -/
def innerLoop : Nat → BoardState → Option (List BoardState)
  | 0, _ => some []
  | n+1, s => do
    let s' ← align_to_center s
    let rest ← innerLoop n (rotate_center s')
    pure (if check s' then s' :: rest else rest)

/-- `main`, run over an explicit list of layouts, accumulating every
passing state in emission order. -/
def runLayouts : List (List Piece) → Option (List BoardState)
  | [] => some []
  | layout :: ls => do
    let out ← innerLoop NUM_SIDES (init_state layout)
    let rest ← runLayouts ls
    pure (out ++ rest)

/-- All solution states found and reported by `main`, in emission order. -/
def mainStates : Option (List BoardState) :=
  runLayouts (necklace_perms pieces)

/-- The lines printed by `main`: `print_state` of each passing state, in
emission order. -/
def mainLines : Option (List String) :=
  mainStates.map (fun states => states.map print_state)

/-- Modelled from the spec (claim C1's reading of the checker, for
comparison with `check`): compare the trailing marking of position `i`
with the marking at index 0 of position `i+1`. -/
def claimCheck (state : BoardState) : Bool :=
  (List.range' 1 (NUM_PIECES - 1)).all (fun i =>
    (state.getD i []).getD 5 0 ==
      (state.getD (if i < NUM_SIDES then i + 1 else 1) []).getD 0 0)

/-- Modelled from the spec (claim C4's per-candidate state machine): the
six states submitted to `check`, one per align-then-check pass, the center
rotated one step between passes. -/
def checkedStates : Nat → BoardState → Option (List BoardState)
  | 0, _ => some []
  | n+1, s => do
    let s' ← align_to_center s
    let rest ← checkedStates n (rotate_center s')
    pure (s' :: rest)

/-- Every state the per-candidate loop passes through: the state entering
each iteration, the aligned state given to `check` and `print_state`, and
the final state after the last center rotation. -/
def traceStates : Nat → BoardState → Option (List BoardState)
  | 0, s => some [s]
  | n+1, s => do
    let s' ← align_to_center s
    let rest ← traceStates n (rotate_center s')
    pure (s :: s' :: rest)

/-- `q` is a (possibly trivial) cyclic rotation of `p`. -/
def IsRotOf (q p : Piece) : Prop := ∃ k, q = rotN k p

/-- Every position of `s` holds some rotation of the piece the layout
assigned to it. -/
def StateRotOf (s : BoardState) (layout : List Piece) : Prop :=
  s.length = layout.length ∧
    ∀ i, i < layout.length → IsRotOf (s.getD i []) (layout.getD i [])

/-- The known unique solution state, used as a concrete input in proofs. -/
def solState : BoardState :=
  [[1, 3, 5, 4, 2, 6], [1, 5, 3, 2, 6, 4], [3, 4, 5, 6, 1, 2], [5, 2, 4, 6, 1, 3],
   [4, 3, 2, 1, 6, 5], [2, 5, 6, 3, 4, 1], [6, 1, 4, 2, 3, 5]]

/-- The candidate layout whose run reports `solState`. -/
def solLayout : List Piece :=
  [[1, 3, 5, 4, 2, 6], [1, 5, 3, 2, 6, 4], [1, 2, 3, 4, 5, 6], [1, 3, 5, 2, 4, 6],
   [1, 6, 5, 4, 3, 2], [1, 2, 5, 6, 3, 4], [1, 4, 2, 3, 5, 6]]

/-- A degenerate all-ones layout, used as a small concrete input. -/
def onesLayout : List Piece :=
  [[1, 1, 1, 1, 1, 1], [1, 1, 1, 1, 1, 1], [1, 1, 1, 1, 1, 1], [1, 1, 1, 1, 1, 1],
   [1, 1, 1, 1, 1, 1], [1, 1, 1, 1, 1, 1], [1, 1, 1, 1, 1, 1]]

/-- A piece holding each of the six marking values exactly once, as every
piece of the fixed table does. -/
def CompletePiece (p : Piece) : Prop := p.Perm [1, 2, 3, 4, 5, 6]

/-- A board state of seven complete pieces. -/
def GoodState (s : BoardState) : Prop :=
  s.length = 7 ∧ ∀ i, i < 7 → CompletePiece (s.getD i [])

/-! The heap model.  Python objects (the global piece lists and the deques
of a board state) live in a heap of cells addressed by natural-number
references; `pieces[i]` is reference `i` into the initial heap.  This level
makes the copying in `pieces[:]` / `deque(piece)` and the in-place mutation
of `deque.rotate()` explicit, so claims about aliasing can be settled. -/

/-- A heap of Python list/deque objects: cell `r` holds the marking
sequence of the object with reference `r`. -/
abbrev Heap := List (List Nat)

/-- Dereference `r`. -/
def readH (h : Heap) (r : Nat) : List Nat := h.getD r []

/-- Mutate the object behind `r` in place. -/
def writeH (h : Heap) (r : Nat) (v : List Nat) : Heap := h.set r v

/-- Allocate a fresh object: the new cell sits at the end of the heap, so
its reference is distinct from every existing one. -/
def allocH (h : Heap) (v : List Nat) : Heap × Nat := (h ++ [v], h.length)

/-- `init_state(layout)` in the heap model: for each piece reference in the
layout, `collections.deque(piece)` allocates a fresh deque holding a copy of
the piece's markings.  Returns the extended heap and the list of deque
references making up the board state. -/
def init_stateH (h : Heap) : List Nat → Heap × List Nat
  | [] => (h, [])
  | r :: rest =>
    let a := allocH h (readH h r)
    let s := init_stateH a.1 rest
    (s.1, a.2 :: s.2)

/-- `rotate_center` in the heap model: mutates the center deque in place. -/
def rotate_centerH (h : Heap) (st : List Nat) : Heap :=
  writeH h (st.getD 0 0) (rotOne (readH h (st.getD 0 0)))

/-- `check_piece` in the heap model: reads only. -/
def check_pieceH (h : Heap) (st : List Nat) (number : Nat) : Bool :=
  let piece := readH h (st.getD number 0)
  let right := readH h (st.getD (if number < NUM_SIDES then number + 1 else 1) 0)
  piece.getD 5 0 == right.getD 1 0

/-- `check` in the heap model: reads only. -/
def checkH (h : Heap) (st : List Nat) : Bool :=
  (List.range' 1 (NUM_PIECES - 1)).all (check_pieceH h st)

/-- `print_state` in the heap model: reads only. -/
def print_stateH (h : Heap) (st : List Nat) : String :=
  String.join (st.map (fun r => pyReprList (readH h r))) ++ "\n"

/-- The alignment `while` loop in the heap model: rotates the deque behind
`r` in place until its leading marking equals `stop`. -/
def alignLoopH : Nat → Nat → Heap → Nat → Option Heap
  | 0, _, _, _ => none
  | fuel+1, stop, h, r =>
    if (readH h r).getD 0 0 = stop then some h
    else alignLoopH fuel stop (writeH h r (rotOne (readH h r))) r

/-- The `align_to_center` loop over outer positions, heap model. -/
def alignAuxH : List Nat → Heap → List Nat → Option Heap
  | [], h, _ => some h
  | i :: rest, h, st =>
    match alignLoopH 6 ((readH h (st.getD 0 0)).getD (get_center_side i) 0) h (st.getD i 0) with
    | none => none
    | some h' => alignAuxH rest h' st

/-- `align_to_center` in the heap model. -/
def align_to_centerH (h : Heap) (st : List Nat) : Option Heap :=
  alignAuxH (List.range' 1 (NUM_PIECES - 1)) h st

/-- The per-candidate loop of `main` in the heap model, also collecting the
printed lines. -/
def innerLoopH : Nat → Heap → List Nat → Option (Heap × List String)
  | 0, h, _ => some (h, [])
  | n+1, h, st =>
    match align_to_centerH h st with
    | none => none
    | some h' =>
      match innerLoopH n (rotate_centerH h' st) st with
      | none => none
      | some r => some (r.1, if checkH h' st then print_stateH h' st :: r.2 else r.2)

/-- One candidate of `main` in the heap model: build the fresh board state,
run the six passes, discard the state references. -/
def runCandidateH (h : Heap) (layout : List Nat) : Option (Heap × List String) :=
  let a := init_stateH h layout
  innerLoopH NUM_SIDES a.1 a.2

/-- `necklace_perms` applied to the list of references `0..6` held by the
global `pieces` variable: the generator only rearranges references
(`pieces[:]` copies the reference list), never touching the heap. -/
def necklace_permsR (rs : List Nat) : List (List Nat) :=
  (List.range NUM_PIECES).flatMap (fun i =>
    let modified_board := rs.eraseIdx i
    (perms modified_board.tail).map
      (fun trailer => rs.getD i 0 :: modified_board.headD 0 :: trailer))

/-- `main` in the heap model: the candidates run in sequence on the shared
heap, each on its own freshly constructed board state. -/
def mainH (h : Heap) : List (List Nat) → Option (Heap × List String)
  | [] => some (h, [])
  | layout :: ls =>
    match runCandidateH h layout with
    | none => none
    | some r =>
      match mainH r.1 ls with
      | none => none
      | some r' => some (r'.1, r.2 ++ r'.2)

/-! Basic rotation lemmas. -/

lemma rotN_zero (p : Piece) : rotN 0 p = p := rfl

lemma rotN_succ (k : Nat) (p : Piece) : rotN (k+1) p = rotOne (rotN k p) := rfl

lemma rotN_one (p : Piece) : rotN 1 p = rotOne p := rfl

lemma rotN_add (a b : Nat) (p : Piece) : rotN (a + b) p = rotN a (rotN b p) := by
  induction a with
  | zero => rw [Nat.zero_add]; rfl
  | succ n ih => rw [Nat.succ_add, rotN_succ, rotN_succ, ih]

lemma rotOne_concat (l : List Nat) (a : Nat) : rotOne (l ++ [a]) = a :: l := by
  simp [rotOne, List.getLast?_concat, List.dropLast_concat]

lemma rotOne_perm (p : Piece) : (rotOne p).Perm p := by
  induction p using List.reverseRecOn with
  | nil => simp [rotOne]
  | append_singleton l a _ =>
    rw [rotOne_concat]
    exact (List.perm_append_singleton a l).symm

lemma rotN_perm (k : Nat) (p : Piece) : (rotN k p).Perm p := by
  induction k with
  | zero => exact List.Perm.refl p
  | succ n ih => exact (rotOne_perm (rotN n p)).trans ih

lemma exists_len6 (p : Piece) (hp : p.length = 6) :
    ∃ a b c d e f, p = [a, b, c, d, e, f] := by
  rcases p with _ | ⟨a, _ | ⟨b, _ | ⟨c, _ | ⟨d, _ | ⟨e, _ | ⟨f, rest⟩⟩⟩⟩⟩⟩
  · simp at hp
  · simp at hp
  · simp at hp
  · simp at hp
  · simp at hp
  · simp at hp
  · have : rest = [] := by
      simpa [List.length_eq_zero] using hp
    exact ⟨a, b, c, d, e, f, by rw [this]⟩

lemma rotN_six (p : Piece) (hp : p.length = 6) : rotN 6 p = p := by
  obtain ⟨a, b, c, d, e, f, rfl⟩ := exists_len6 p hp
  rfl

lemma head_rot_of_mem (p : Piece) (hp : p.length = 6) {v : Nat} (hv : v ∈ p) :
    ∃ k, k < 6 ∧ (rotN k p).getD 0 0 = v := by
  obtain ⟨a, b, c, d, e, f, rfl⟩ := exists_len6 p hp
  simp only [List.mem_cons, List.not_mem_nil, or_false] at hv
  rcases hv with rfl | rfl | rfl | rfl | rfl | rfl
  · exact ⟨0, by omega, rfl⟩
  · exact ⟨5, by omega, rfl⟩
  · exact ⟨4, by omega, rfl⟩
  · exact ⟨3, by omega, rfl⟩
  · exact ⟨2, by omega, rfl⟩
  · exact ⟨1, by omega, rfl⟩

/-! Alignment-loop lemmas. -/

lemma alignLoop_eq_some {fuel stop : Nat} {p q : Piece}
    (h : alignLoop fuel stop p = some q) :
    q.getD 0 0 = stop ∧ ∃ k, k < fuel ∧ q = rotN k p := by
  induction fuel generalizing p with
  | zero => simp [alignLoop] at h
  | succ n ih =>
    rw [alignLoop] at h
    by_cases hh : p.getD 0 0 = stop
    · rw [if_pos hh, Option.some_inj] at h
      exact ⟨by rw [← h]; exact hh, 0, by omega, h.symm⟩
    · rw [if_neg hh] at h
      obtain ⟨hq, k, hklt, hk⟩ := ih h
      refine ⟨hq, k + 1, by omega, ?_⟩
      rw [hk, ← rotN_one, ← rotN_add, Nat.add_comm]

lemma alignLoop_some_of (p : Piece) {fuel stop : Nat}
    (h : ∃ k, k < fuel ∧ (rotN k p).getD 0 0 = stop) :
    ∃ q, alignLoop fuel stop p = some q := by
  induction fuel generalizing p with
  | zero => obtain ⟨k, hk, _⟩ := h; omega
  | succ n ih =>
    by_cases hh : p.getD 0 0 = stop
    · exact ⟨p, by rw [alignLoop, if_pos hh]⟩
    · obtain ⟨k, hk, hkv⟩ := h
      rcases k with _ | k'
      · exact absurd hkv hh
      · obtain ⟨q, hq⟩ := ih (rotOne p)
          ⟨k', by omega, by rw [rotN_add, rotN_one] at hkv; exact hkv⟩
        exact ⟨q, by rw [alignLoop, if_neg hh]; exact hq⟩

lemma alignLoop_some_of_mem {p : Piece} {stop : Nat}
    (hp : p.length = 6) (hv : stop ∈ p) :
    ∃ q, alignLoop 6 stop p = some q :=
  alignLoop_some_of p (head_rot_of_mem p hp hv)

/-! List indexing helpers. -/

lemma getD_set_self {α : Type} (l : List α) {i : Nat} (hi : i < l.length) (v d : α) :
    (l.set i v).getD i d = v := by
  rw [List.getD_eq_getElem?_getD, List.getElem?_set_self hi]
  rfl

lemma getD_set_ne {α : Type} (l : List α) {i j : Nat} (hij : i ≠ j) (v d : α) :
    (l.set i v).getD j d = l.getD j d := by
  rw [List.getD_eq_getElem?_getD, List.getElem?_set_ne hij, ← List.getD_eq_getElem?_getD]

lemma getD_mem {α : Type} (l : List α) {i : Nat} (hi : i < l.length) (d : α) :
    l.getD i d ∈ l := by
  rw [List.getD_eq_getElem l d hi]
  exact List.getElem_mem hi

/-! `alignAux` lemmas: the center is never touched, each processed outer
position ends with its leading marking equal to the required center value,
and every position ends holding a rotation of what it held before. -/

lemma alignAux_center {is : List Nat} {st st' : BoardState}
    (h : alignAux is st = some st') (h0 : 0 ∉ is) :
    st'.getD 0 [] = st.getD 0 [] ∧ st'.length = st.length := by
  induction is generalizing st with
  | nil =>
    rw [alignAux, Option.some_inj] at h
    rw [← h]
    exact ⟨rfl, rfl⟩
  | cons i rest ih =>
    rw [alignAux] at h
    rcases hal : alignLoop 6 ((st.getD 0 []).getD (get_center_side i) 0) (st.getD i []) with _ | p
    · rw [hal] at h; exact absurd h (by simp)
    · rw [hal] at h
      have hi0 : i ≠ 0 := fun hc => h0 (hc ▸ List.mem_cons_self i rest)
      have hrest : 0 ∉ rest := fun hc => h0 (List.mem_cons_of_mem i hc)
      obtain ⟨hc, hl⟩ := ih h hrest
      refine ⟨?_, by rw [hl, List.length_set]⟩
      rw [hc, getD_set_ne st hi0]

lemma alignAux_untouched {is : List Nat} {st st' : BoardState} {j : Nat}
    (h : alignAux is st = some st') (hj : j ∉ is) :
    st'.getD j [] = st.getD j [] := by
  induction is generalizing st with
  | nil =>
    rw [alignAux, Option.some_inj] at h
    rw [← h]
  | cons i rest ih =>
    rw [alignAux] at h
    rcases hal : alignLoop 6 ((st.getD 0 []).getD (get_center_side i) 0) (st.getD i []) with _ | p
    · rw [hal] at h; exact absurd h (by simp)
    · rw [hal] at h
      have hij : i ≠ j := fun hc => hj (hc ▸ List.mem_cons_self i rest)
      have hrest : j ∉ rest := fun hc => hj (List.mem_cons_of_mem i hc)
      rw [ih h hrest, getD_set_ne st hij]

lemma alignAux_heads {is : List Nat} {st st' : BoardState}
    (h : alignAux is st = some st') (hnd : is.Nodup) (h0 : 0 ∉ is)
    (hlt : ∀ i ∈ is, i < st.length) :
    ∀ i ∈ is, (st'.getD i []).getD 0 0 = (st.getD 0 []).getD (get_center_side i) 0 := by
  induction is generalizing st with
  | nil => intro i hi; exact absurd hi (List.not_mem_nil i)
  | cons i rest ih =>
    rw [alignAux] at h
    rcases hal : alignLoop 6 ((st.getD 0 []).getD (get_center_side i) 0) (st.getD i []) with _ | p
    · rw [hal] at h; exact absurd h (by simp)
    · rw [hal] at h
      have hi0 : i ≠ 0 := fun hc => h0 (hc ▸ List.mem_cons_self i rest)
      have hrest0 : 0 ∉ rest := fun hc => h0 (List.mem_cons_of_mem i hc)
      have hirest : i ∉ rest := (List.nodup_cons.mp hnd).1
      have hcenter : (st.set i p).getD 0 [] = st.getD 0 [] :=
        getD_set_ne st hi0 p []
      intro j hj
      rcases List.mem_cons.mp hj with rfl | hjr
      · rw [alignAux_untouched h hirest,
          getD_set_self st (hlt j (List.mem_cons_self j rest))]
        exact (alignLoop_eq_some hal).1
      · have := ih h (List.nodup_cons.mp hnd).2 hrest0
          (fun x hx => by rw [List.length_set]; exact hlt x (List.mem_cons_of_mem i hx))
          j hjr
        rw [this, hcenter]

lemma alignAux_rot {is : List Nat} {st st' : BoardState}
    (h : alignAux is st = some st') :
    ∀ j, IsRotOf (st'.getD j []) (st.getD j []) := by
  induction is generalizing st with
  | nil =>
    rw [alignAux, Option.some_inj] at h
    intro j
    rw [← h]
    exact ⟨0, rfl⟩
  | cons i rest ih =>
    rw [alignAux] at h
    rcases hal : alignLoop 6 ((st.getD 0 []).getD (get_center_side i) 0) (st.getD i []) with _ | p
    · rw [hal] at h; exact absurd h (by simp)
    · rw [hal] at h
      intro j
      obtain ⟨k, hk⟩ := ih h j
      by_cases hij : i = j
      · subst hij
        rcases Nat.lt_or_ge i st.length with hlen | hlen
        · rw [getD_set_self st hlen] at hk
          obtain ⟨k', _, hk'⟩ := (alignLoop_eq_some hal).2
          exact ⟨k + k', by rw [hk, hk', ← rotN_add]⟩
        · rw [List.set_eq_of_length_le hlen] at hk
          exact ⟨k, hk⟩
      · rw [getD_set_ne st hij] at hk
        exact ⟨k, hk⟩

/-! Invariant machinery for the per-candidate loop. -/

lemma isRotOf_refl (p : Piece) : IsRotOf p p := ⟨0, rfl⟩

lemma isRotOf_trans {a b c : Piece} (h1 : IsRotOf a b) (h2 : IsRotOf b c) :
    IsRotOf a c := by
  obtain ⟨k, hk⟩ := h1
  obtain ⟨k', hk'⟩ := h2
  exact ⟨k + k', by rw [hk, hk', ← rotN_add]⟩

lemma CompletePiece.rot {p : Piece} (h : CompletePiece p) (k : Nat) :
    CompletePiece (rotN k p) := (rotN_perm k p).trans h

lemma CompletePiece.length {p : Piece} (h : CompletePiece p) : p.length = 6 :=
  h.length_eq

lemma pieces_complete : ∀ p ∈ pieces, CompletePiece p :=
  show ∀ p ∈ pieces, p.Perm [1, 2, 3, 4, 5, 6] by decide

lemma init_state_eq (layout : List Piece) : init_state layout = layout := by
  simp [init_state]

lemma stateRotOf_refl (s : BoardState) : StateRotOf s s :=
  ⟨rfl, fun _ _ => isRotOf_refl _⟩

lemma goodState_of_rotOf {s layout : BoardState}
    (hr : StateRotOf s layout) (hg : GoodState layout) : GoodState s := by
  obtain ⟨hlen, hrot⟩ := hr
  obtain ⟨hlen7, hcomp⟩ := hg
  refine ⟨by rw [hlen, hlen7], fun i hi => ?_⟩
  obtain ⟨k, hk⟩ := hrot i (by rw [hlen7]; exact hi)
  rw [hk]
  exact (hcomp i hi).rot k

lemma align_rotOf {st st' : BoardState} (h : align_to_center st = some st') :
    StateRotOf st' st := by
  refine ⟨(alignAux_center h (by decide)).2, fun i _ => alignAux_rot h i⟩

lemma stateRotOf_trans {a b c : BoardState}
    (h1 : StateRotOf a b) (h2 : StateRotOf b c) : StateRotOf a c := by
  obtain ⟨l1, r1⟩ := h1
  obtain ⟨l2, r2⟩ := h2
  exact ⟨l1.trans l2, fun i hi => isRotOf_trans (r1 i (by rw [l2]; exact hi)) (r2 i hi)⟩

lemma rotate_center_rotOf {st : BoardState} : StateRotOf (rotate_center st) st := by
  refine ⟨List.length_set st 0 _, fun i _ => ?_⟩
  by_cases h0 : (0 : Nat) = i
  · subst h0
    rcases Nat.lt_or_ge 0 st.length with hlen | hlen
    · rw [rotate_center, getD_set_self st hlen]
      exact ⟨1, rfl⟩
    · rw [rotate_center, List.set_eq_of_length_le hlen]
      exact isRotOf_refl _
  · rw [rotate_center, getD_set_ne st h0]
    exact isRotOf_refl _

lemma align_some_of_good {st : BoardState} (hg : GoodState st) :
    ∃ st', align_to_center st = some st' := by
  have key : ∀ (is : List Nat) (s : BoardState), GoodState s →
      (∀ i ∈ is, 1 ≤ i ∧ i < 7) → ∃ s', alignAux is s = some s' := by
    intro is
    induction is with
    | nil => intro s _ _; exact ⟨s, rfl⟩
    | cons i rest ih =>
      intro s hs hmem
      obtain ⟨hi1, hi7⟩ := hmem i (List.mem_cons_self i rest)
      have hcen : CompletePiece (s.getD 0 []) := hs.2 0 (by omega)
      have hstop : (s.getD 0 []).getD (get_center_side i) 0 ∈ s.getD 0 [] := by
        refine getD_mem _ ?_ 0
        rw [hcen.length, get_center_side]
        omega
      have hp : CompletePiece (s.getD i []) := hs.2 i hi7
      have hstop' : (s.getD 0 []).getD (get_center_side i) 0 ∈ s.getD i [] := by
        rw [hp.mem_iff]
        rw [← hcen.mem_iff]
        exact hstop
      obtain ⟨q, hq⟩ := alignLoop_some_of_mem hp.length hstop'
      have hgood' : GoodState (s.set i q) := by
        refine ⟨by rw [List.length_set]; exact hs.1, fun j hj => ?_⟩
        by_cases hij : i = j
        · subst hij
          rw [getD_set_self s (by rw [hs.1]; exact hj)]
          obtain ⟨k, _, hk⟩ := (alignLoop_eq_some hq).2
          rw [hk]
          exact hp.rot k
        · rw [getD_set_ne s hij]
          exact hs.2 j hj
      obtain ⟨s', hs'⟩ := ih (s.set i q) hgood'
        (fun x hx => hmem x (List.mem_cons_of_mem i hx))
      exact ⟨s', by rw [alignAux, hq]; exact hs'⟩
  exact key (List.range' 1 (NUM_PIECES - 1)) st hg (by decide)

lemma innerLoop_some {layout st : BoardState} (hg : GoodState layout)
    (hr : StateRotOf st layout) (n : Nat) :
    ∃ out, innerLoop n st = some out := by
  induction n generalizing st with
  | zero => exact ⟨[], rfl⟩
  | succ m ih =>
    obtain ⟨st', hst'⟩ := align_some_of_good (goodState_of_rotOf hr hg)
    obtain ⟨out, hout⟩ := ih (stateRotOf_trans rotate_center_rotOf (stateRotOf_trans (align_rotOf hst') hr))
    refine ⟨if check st' then st' :: out else out, ?_⟩
    rw [innerLoop, hst']
    simp only [Option.bind_eq_bind, Option.some_bind, hout]
    rfl

lemma innerLoop_inv {layout st : BoardState} {out : List BoardState} {n : Nat}
    (hr : StateRotOf st layout) (h : innerLoop n st = some out) :
    ∀ s ∈ out, check s = true ∧ StateRotOf s layout := by
  induction n generalizing st out with
  | zero =>
    rw [innerLoop, Option.some_inj] at h
    rw [← h]
    intro s hs
    exact absurd hs (List.not_mem_nil s)
  | succ m ih =>
    rw [innerLoop] at h
    rcases hal : align_to_center st with _ | st'
    · rw [hal] at h; exact absurd h (by simp)
    · rw [hal] at h
      simp only [Option.bind_eq_bind, Option.some_bind] at h
      rcases hrec : innerLoop m (rotate_center st') with _ | rest
      · rw [hrec] at h; exact absurd h (by simp)
      · rw [hrec] at h
        simp only [Option.some_bind, Option.pure_def, Option.some_inj] at h
        have hst' : StateRotOf st' layout := stateRotOf_trans (align_rotOf hal) hr
        have hrest := ih (stateRotOf_trans rotate_center_rotOf hst') hrec
        intro s hs
        rw [← h] at hs
        by_cases hc : check st' = true
        · rw [if_pos hc] at hs
          rcases List.mem_cons.mp hs with rfl | hsr
          · exact ⟨hc, hst'⟩
          · exact hrest s hsr
        · rw [if_neg hc] at hs
          exact hrest s hs

/-! Lemmas on the permutation generator. -/

lemma picks_perm {α : Type} {l : List α} {x : α} {r : List α}
    (h : (x, r) ∈ picks l) : (x :: r).Perm l := by
  induction l generalizing x r with
  | nil => exact absurd h (List.not_mem_nil _)
  | cons a t ih =>
    rw [picks] at h
    rcases List.mem_cons.mp h with heq | hmem
    · rw [Prod.mk.injEq] at heq
      rw [heq.1, heq.2]
    · obtain ⟨⟨y, s⟩, hys, heq⟩ := List.mem_map.mp hmem
      rw [Prod.mk.injEq] at heq
      obtain ⟨rfl, rfl⟩ := heq
      exact (List.Perm.swap a y s).trans ((ih hys).cons a)

lemma picks_rest_length {α : Type} {l : List α} {x : α} {r : List α}
    (h : (x, r) ∈ picks l) : r.length + 1 = l.length := by
  have := (picks_perm h).length_eq
  simpa using this

lemma picks_length {α : Type} (l : List α) : (picks l).length = l.length := by
  induction l with
  | nil => rfl
  | cons a t ih => simp [picks, ih]

lemma picks_map_fst {α : Type} (l : List α) : (picks l).map Prod.fst = l := by
  induction l with
  | nil => rfl
  | cons a t ih =>
    rw [picks, List.map_cons]
    rw [List.map_map]
    have : (Prod.fst ∘ fun q : α × List α => (q.1, a :: q.2)) = Prod.fst := rfl
    rw [this, ih]

lemma sum_map_eq_length_mul {α : Type} {l : List α} {f : α → Nat} {c : Nat}
    (h : ∀ x ∈ l, f x = c) : (l.map f).sum = l.length * c := by
  induction l with
  | nil => simp
  | cons a t ih =>
    rw [List.map_cons, List.sum_cons, ih (fun x hx => h x (List.mem_cons_of_mem a hx)),
      h a (List.mem_cons_self a t), List.length_cons]
    ring

lemma permsAux_length {α : Type} : ∀ (n : Nat) (l : List α), l.length = n →
    (permsAux n l).length = Nat.factorial n := by
  intro n
  induction n with
  | zero => intro l _; rfl
  | succ m ih =>
    intro l hl
    rw [permsAux, List.length_flatMap]
    have hmap : ∀ q ∈ picks l,
        (List.length ∘ fun q : α × List α =>
          (permsAux m q.2).map (fun t => q.1 :: t)) q = Nat.factorial m := by
      intro q hq
      have hq2 : q.2.length = m := by
        have := picks_rest_length (l := l) (x := q.1) (r := q.2) (by simpa using hq)
        omega
      simp [ih q.2 hq2]
    rw [sum_map_eq_length_mul hmap, picks_length, hl, Nat.factorial_succ]

lemma permsAux_mem {α : Type} : ∀ {n : Nat} {l q : List α}, l.length = n →
    q ∈ permsAux n l → q.Perm l := by
  intro n
  induction n with
  | zero =>
    intro l q hl hq
    rw [permsAux] at hq
    rcases List.mem_singleton.mp hq with rfl
    rw [List.length_eq_zero.mp hl]
  | succ m ih =>
    intro l q hl hq
    rw [permsAux] at hq
    obtain ⟨⟨x, r⟩, hxr, hmem⟩ := List.mem_flatMap.mp hq
    obtain ⟨t, ht, rfl⟩ := List.mem_map.mp hmem
    have hr : r.length = m := by
      have := picks_rest_length hxr
      omega
    exact ((ih hr ht).cons x).trans (picks_perm hxr)

lemma perms_mem {α : Type} {l q : List α} (hq : q ∈ perms l) : q.Perm l :=
  permsAux_mem rfl hq

lemma perms_length {α : Type} (l : List α) :
    (perms l).length = Nat.factorial l.length :=
  permsAux_length l.length l rfl

lemma permsAux_nodup {α : Type} : ∀ {n : Nat} {l : List α}, l.length = n →
    l.Nodup → (permsAux n l).Nodup := by
  intro n
  induction n with
  | zero => intro l _ _; simp [permsAux]
  | succ m ih =>
    intro l hl hnd
    rw [permsAux, List.nodup_flatMap]
    constructor
    · intro ⟨x, r⟩ hxr
      have hr : r.length = m := by
        have := picks_rest_length hxr
        omega
      have hrnd : r.Nodup := by
        have hperm := picks_perm hxr
        have := hperm.nodup_iff.mpr hnd
        exact (List.nodup_cons.mp this).2
      exact (ih hr hrnd).map (fun a b hab => by simpa using hab)
    · have hfst : ((picks l).map Prod.fst).Nodup := by
        rw [picks_map_fst]; exact hnd
      have hpw : (picks l).Pairwise (fun a b => a.1 ≠ b.1) := by
        rw [List.Nodup, List.pairwise_map] at hfst
        exact hfst
      refine hpw.imp ?_
      intro a b hab
      simp only [Function.onFun]
      rw [List.disjoint_left]
      intro q hqa hqb
      obtain ⟨t, _, rfl⟩ := List.mem_map.mp hqa
      obtain ⟨t', _, heq⟩ := List.mem_map.mp hqb
      have hba : b.1 = a.1 := (List.cons_eq_cons.mp heq).1
      exact hab hba.symm

lemma perms_nodup {α : Type} {l : List α} (h : l.Nodup) : (perms l).Nodup :=
  permsAux_nodup rfl h

/-! Lemmas on the necklace enumeration. -/

lemma getD_cons_eraseIdx {α : Type} :
    ∀ (l : List α) (i : Nat), i < l.length → ∀ (d : α),
      (l.getD i d :: l.eraseIdx i).Perm l := by
  intro l
  induction l with
  | nil => intro i hi; simp at hi
  | cons a t ih =>
    intro i hi d
    rcases i with _ | j
    · rw [List.getD_cons_zero, List.eraseIdx_cons_zero]
    · rw [List.getD_cons_succ, List.eraseIdx_cons_succ]
      have hj : j < t.length := by simpa using hi
      exact (List.Perm.swap a (t.getD j d) (t.eraseIdx j)).trans ((ih j hj d).cons a)

lemma headD_cons_tail {α : Type} {l : List α} (h : l ≠ []) (d : α) :
    l.headD d :: l.tail = l := by
  cases l with
  | nil => exact absurd rfl h
  | cons a t => rfl

lemma pieces_length : pieces.length = 7 := rfl

lemma pieces_nodup : pieces.Nodup := by decide

lemma eraseIdx_pieces_length {i : Nat} (hi : i < 7) :
    (pieces.eraseIdx i).length = 6 := by
  rw [List.length_eraseIdx]
  rw [pieces_length]
  simp [hi]

lemma necklace_mem {layout : List Piece}
    (h : layout ∈ necklace_perms pieces) : layout.Perm pieces := by
  rw [necklace_perms, List.mem_flatMap] at h
  obtain ⟨i, hi, hmem⟩ := h
  rw [List.mem_range] at hi
  have hi7 : i < 7 := hi
  obtain ⟨trailer, htr, rfl⟩ := List.mem_map.mp hmem
  have hmlen : (pieces.eraseIdx i).length = 6 := eraseIdx_pieces_length hi7
  have htail : (pieces.eraseIdx i).tail.length = 5 := by
    rw [List.length_tail, hmlen]
  have htp : trailer.Perm (pieces.eraseIdx i).tail := perms_mem htr
  have hne : pieces.eraseIdx i ≠ [] := by
    intro hc
    rw [hc] at hmlen
    simp at hmlen
  have h1 : (pieces.getD i [] :: (pieces.eraseIdx i).headD [] :: trailer).Perm
      (pieces.getD i [] :: pieces.eraseIdx i) := by
    have h2 := (htp.cons ((pieces.eraseIdx i).headD [])).cons (pieces.getD i [])
    rwa [headD_cons_tail hne] at h2
  exact h1.trans (getD_cons_eraseIdx pieces i (by rw [pieces_length]; exact hi7) [])

lemma necklace_length : (necklace_perms pieces).length = 840 := by
  rw [necklace_perms, List.length_flatMap]
  have hmap : ∀ i ∈ List.range NUM_PIECES,
      (List.length ∘ fun i =>
        (perms (pieces.eraseIdx i).tail).map
          (fun trailer => pieces.getD i [] :: (pieces.eraseIdx i).headD [] :: trailer)) i
        = 120 := by
    intro i hi
    rw [List.mem_range] at hi
    have hi7 : i < 7 := hi
    have htail : (pieces.eraseIdx i).tail.length = 5 := by
      rw [List.length_tail, eraseIdx_pieces_length hi7]
    simp only [Function.comp_apply, List.length_map]
    rw [perms_length, htail]
    rfl
  rw [sum_map_eq_length_mul hmap]
  rfl

lemma necklace_nodup : (necklace_perms pieces).Nodup := by
  rw [necklace_perms, List.nodup_flatMap]
  constructor
  · intro i hi
    rw [List.mem_range] at hi
    have hi7 : i < 7 := hi
    have htail : (pieces.eraseIdx i).tail.Nodup :=
      List.Nodup.sublist (List.tail_sublist _) (pieces_nodup.eraseIdx i)
    exact (perms_nodup htail).map (fun a b hab => by simpa using hab)
  · rw [List.pairwise_iff_getElem]
    intro i j hi hj hij
    rw [List.getElem_range, List.getElem_range]
    simp only [Function.onFun]
    rw [List.disjoint_left]
    intro q hqi hqj
    obtain ⟨t, _, rfl⟩ := List.mem_map.mp hqi
    obtain ⟨t', _, heq⟩ := List.mem_map.mp hqj
    have hlen : (List.range NUM_PIECES).length = 7 := rfl
    have hij7 : i < 7 ∧ j < 7 := by
      rw [hlen] at hi hj
      exact ⟨hi, hj⟩
    have hcent : pieces.getD j [] = pieces.getD i [] := (List.cons_eq_cons.mp heq).1
    have hilt : i < pieces.length := by rw [pieces_length]; exact hij7.1
    have hjlt : j < pieces.length := by rw [pieces_length]; exact hij7.2
    have hgi := List.getD_eq_getElem pieces [] hilt
    have hgj := List.getD_eq_getElem pieces [] hjlt
    rw [hgi, hgj] at hcent
    have := (pieces_nodup.getElem_inj_iff).mp hcent
    omega

lemma solLayout_mem : solLayout ∈ necklace_perms pieces := by
  rw [necklace_perms, List.mem_flatMap]
  refine ⟨2, by decide, ?_⟩
  rw [List.mem_map]
  refine ⟨[[1, 2, 3, 4, 5, 6], [1, 3, 5, 2, 4, 6], [1, 6, 5, 4, 3, 2],
    [1, 2, 5, 6, 3, 4], [1, 4, 2, 3, 5, 6]], ?_, by decide⟩
  show _ ∈ perms ([[1, 4, 2, 3, 5, 6], [1, 3, 5, 2, 4, 6], [1, 2, 3, 4, 5, 6],
    [1, 2, 5, 6, 3, 4], [1, 6, 5, 4, 3, 2]] : List Piece)
  decide

/-! Lemmas on the full search. -/

lemma necklace_good {layout : List Piece}
    (h : layout ∈ necklace_perms pieces) : GoodState layout := by
  have hperm := necklace_mem h
  refine ⟨by rw [hperm.length_eq, pieces_length], fun i hi => ?_⟩
  have hmem : layout.getD i [] ∈ layout :=
    getD_mem layout (by rw [hperm.length_eq, pieces_length]; exact hi) []
  exact pieces_complete _ (hperm.mem_iff.mp hmem)

lemma innerLoop_init_some {layout : List Piece} (hg : GoodState layout) :
    ∃ out, innerLoop NUM_SIDES (init_state layout) = some out := by
  refine innerLoop_some hg ?_ NUM_SIDES
  rw [init_state_eq]
  exact stateRotOf_refl layout

lemma runLayouts_some {ls : List (List Piece)} (h : ∀ l ∈ ls, GoodState l) :
    ∃ L, runLayouts ls = some L := by
  induction ls with
  | nil => exact ⟨[], rfl⟩
  | cons a t ih =>
    obtain ⟨out, hout⟩ := innerLoop_init_some (h a (List.mem_cons_self a t))
    obtain ⟨L, hL⟩ := ih (fun x hx => h x (List.mem_cons_of_mem a hx))
    exact ⟨out ++ L, by rw [runLayouts, hout]; simp only [Option.bind_eq_bind,
      Option.some_bind, hL]; rfl⟩

lemma runLayouts_mem_of {ls : List (List Piece)} {l : List Piece} {out : List BoardState}
    (hmem : l ∈ ls) (hgood : ∀ x ∈ ls, GoodState x)
    (hout : innerLoop NUM_SIDES (init_state l) = some out) :
    ∃ L, runLayouts ls = some L ∧ ∀ s ∈ out, s ∈ L := by
  induction ls with
  | nil => exact absurd hmem (List.not_mem_nil l)
  | cons a t ih =>
    obtain ⟨outa, houta⟩ := innerLoop_init_some (hgood a (List.mem_cons_self a t))
    obtain ⟨L2, hL2⟩ := runLayouts_some (fun x hx => hgood x (List.mem_cons_of_mem a hx))
    rcases List.mem_cons.mp hmem with rfl | hmt
    · rw [houta, Option.some_inj] at hout
      refine ⟨outa ++ L2, ?_, fun s hs => List.mem_append_left L2 (hout ▸ hs)⟩
      rw [runLayouts, houta]
      simp only [Option.bind_eq_bind, Option.some_bind, hL2]
      rfl
    · obtain ⟨L2x, hL2x, hsub⟩ := ih hmt (fun x hx => hgood x (List.mem_cons_of_mem a hx))
      refine ⟨outa ++ L2x, ?_, fun s hs => List.mem_append_right outa (hsub s hs)⟩
      rw [runLayouts, houta]
      simp only [Option.bind_eq_bind, Option.some_bind, hL2x]
      rfl

lemma runLayouts_mem {ls : List (List Piece)} {L : List BoardState}
    (h : runLayouts ls = some L) :
    ∀ s ∈ L, ∃ l ∈ ls, ∃ out,
      innerLoop NUM_SIDES (init_state l) = some out ∧ s ∈ out := by
  induction ls generalizing L with
  | nil =>
    rw [runLayouts, Option.some_inj] at h
    rw [← h]
    intro s hs
    exact absurd hs (List.not_mem_nil s)
  | cons a t ih =>
    rw [runLayouts] at h
    rcases hal : innerLoop NUM_SIDES (init_state a) with _ | out
    · rw [hal] at h; exact absurd h (by simp)
    · rw [hal] at h
      simp only [Option.bind_eq_bind, Option.some_bind] at h
      rcases hrec : runLayouts t with _ | rest
      · rw [hrec] at h; exact absurd h (by simp)
      · rw [hrec] at h
        simp only [Option.some_bind, Option.pure_def, Option.some_inj] at h
        intro s hs
        rw [← h] at hs
        rcases List.mem_append.mp hs with hs1 | hs2
        · exact ⟨a, List.mem_cons_self a t, out, hal, hs1⟩
        · obtain ⟨l, hl, out', hout', hs'⟩ := ih hrec s hs2
          exact ⟨l, List.mem_cons_of_mem a hl, out', hout', hs'⟩

/-- The single candidate run that finds the solution, evaluated. -/
lemma innerLoop_solLayout : innerLoop NUM_SIDES (init_state solLayout) = some [solState] := by
  decide

lemma mainStates_spec : ∃ L, mainStates = some L ∧ solState ∈ L := by
  obtain ⟨L, hL, hm⟩ := runLayouts_mem_of solLayout_mem
    (fun x hx => necklace_good hx) innerLoop_solLayout
  exact ⟨L, hL, hm solState (List.mem_singleton.mpr rfl)⟩

/-! Relation between the per-candidate loop and its six check passes. -/

lemma innerLoop_eq_filter : ∀ {n : Nat} {st : BoardState} {l : List BoardState},
    checkedStates n st = some l →
    l.length = n ∧ innerLoop n st = some (l.filter check) := by
  intro n
  induction n with
  | zero =>
    intro st l h
    rw [checkedStates, Option.some_inj] at h
    rw [← h]
    exact ⟨rfl, rfl⟩
  | succ m ih =>
    intro st l h
    rw [checkedStates] at h
    rcases hal : align_to_center st with _ | st'
    · rw [hal] at h; exact absurd h (by simp)
    · rw [hal] at h
      simp only [Option.bind_eq_bind, Option.some_bind] at h
      rcases hrec : checkedStates m (rotate_center st') with _ | rest
      · rw [hrec] at h; exact absurd h (by simp)
      · rw [hrec] at h
        simp only [Option.some_bind, Option.pure_def, Option.some_inj] at h
        obtain ⟨hlen, hloop⟩ := ih hrec
        rw [← h]
        refine ⟨by simp [hlen], ?_⟩
        rw [innerLoop, hal]
        simp only [Option.bind_eq_bind, Option.some_bind, hloop, List.filter_cons]
        by_cases hc : check st' = true
        · simp only [hc, if_true]
          rfl
        · simp only [hc, if_false, Bool.false_eq_true]
          rfl

/-! Uniqueness of the aligned rotation. -/

lemma rot_head_getD (p : Piece) (hp : p.length = 6) {k : Nat} (hk : k < 6) :
    (rotN k p).getD 0 0 = p.getD ((6 - k) % 6) 0 := by
  obtain ⟨a, b, c, d, e, f, rfl⟩ := exists_len6 p hp
  interval_cases k
  · rfl
  · rfl
  · rfl
  · rfl
  · rfl
  · rfl

lemma head_rot_inj {p : Piece} (hp : CompletePiece p) {k k' : Nat}
    (hk : k < 6) (hk' : k' < 6)
    (h : (rotN k p).getD 0 0 = (rotN k' p).getD 0 0) : k = k' := by
  have hlen : p.length = 6 := hp.length
  have hnd : p.Nodup := hp.nodup_iff.mpr (by decide)
  rw [rot_head_getD p hlen hk, rot_head_getD p hlen hk'] at h
  have hb1 : (6 - k) % 6 < p.length := by rw [hlen]; omega
  have hb2 : (6 - k') % 6 < p.length := by rw [hlen]; omega
  rw [List.getD_eq_getElem p 0 hb1, List.getD_eq_getElem p 0 hb2] at h
  have := (hnd.getElem_inj_iff).mp h
  omega

/-! The rotation invariant along the whole per-candidate trace. -/

lemma traceStates_inv {layout : BoardState} : ∀ {n : Nat} {st : BoardState}
    {tr : List BoardState}, StateRotOf st layout → traceStates n st = some tr →
    ∀ s ∈ tr, StateRotOf s layout := by
  intro n
  induction n with
  | zero =>
    intro st tr hr h
    rw [traceStates, Option.some_inj] at h
    rw [← h]
    intro s hs
    rcases List.mem_singleton.mp hs with rfl
    exact hr
  | succ m ih =>
    intro st tr hr h
    rw [traceStates] at h
    rcases hal : align_to_center st with _ | st'
    · rw [hal] at h; exact absurd h (by simp)
    · rw [hal] at h
      simp only [Option.bind_eq_bind, Option.some_bind] at h
      rcases hrec : traceStates m (rotate_center st') with _ | rest
      · rw [hrec] at h; exact absurd h (by simp)
      · rw [hrec] at h
        simp only [Option.some_bind, Option.pure_def, Option.some_inj] at h
        have hst' : StateRotOf st' layout := stateRotOf_trans (align_rotOf hal) hr
        intro s hs
        rw [← h] at hs
        rcases List.mem_cons.mp hs with rfl | hs'
        · exact hr
        · rcases List.mem_cons.mp hs' with rfl | hs''
          · exact hst'
          · exact ih (stateRotOf_trans rotate_center_rotOf hst') hrec s hs''

/-! Lemmas on the printed representation. -/

lemma count_data_append (s t : String) (c : Char) :
    (s ++ t).data.count c = s.data.count c + t.data.count c := by
  rw [String.data_append, List.count_append]

lemma toString_fixed_no_nl : ∀ v ∈ ([1, 2, 3, 4, 5, 6] : List Nat),
    (toString v).data.count ('\n') = 0 := by decide

lemma commaJoin_no_nl : ∀ {xs : List String},
    (∀ x ∈ xs, x.data.count ('\n') = 0) → (commaJoin xs).data.count ('\n') = 0 := by
  intro xs
  induction xs with
  | nil => intro _; rfl
  | cons x t ih =>
    intro h
    cases t with
    | nil => exact h x (List.mem_singleton.mpr rfl)
    | cons y u =>
      rw [commaJoin, count_data_append, count_data_append]
      rw [h x (List.mem_cons_self _ _), ih (fun z hz => h z (List.mem_cons_of_mem x hz))]
      rfl

lemma pyReprList_no_nl {p : Piece} (hp : ∀ v ∈ p, v ∈ ([1, 2, 3, 4, 5, 6] : List Nat)) :
    (pyReprList p).data.count ('\n') = 0 := by
  rw [pyReprList, count_data_append, count_data_append]
  have hmid : (commaJoin (p.map (fun n => toString n))).data.count ('\n') = 0 := by
    refine commaJoin_no_nl ?_
    intro x hx
    obtain ⟨v, hv, rfl⟩ := List.mem_map.mp hx
    exact toString_fixed_no_nl v (hp v hv)
  rw [hmid]
  rfl

lemma join_no_nl : ∀ {xs : List String},
    (∀ x ∈ xs, x.data.count ('\n') = 0) → (String.join xs).data.count ('\n') = 0 := by
  intro xs
  induction xs with
  | nil => intro _; rfl
  | cons x t ih =>
    intro h
    rw [String.join_eq] at *
    simp only [List.map_cons, List.flatten_cons, List.count_append]
    have h1 : x.data.count ('\n') = 0 := h x (List.mem_cons_self _ _)
    have h2 := ih (fun z hz => h z (List.mem_cons_of_mem x hz))
    rw [h1, Nat.zero_add]
    exact h2

lemma print_state_eq (s : BoardState) :
    print_state s = String.join (s.map pyReprList) ++ "\n" := rfl

lemma print_state_one_nl {s : BoardState}
    (hs : ∀ p ∈ s, ∀ v ∈ p, v ∈ ([1, 2, 3, 4, 5, 6] : List Nat)) :
    (print_state s).data.count ('\n') = 1 := by
  rw [print_state_eq, count_data_append]
  have hj : (String.join (s.map pyReprList)).data.count ('\n') = 0 := by
    refine join_no_nl ?_
    intro x hx
    obtain ⟨p, hp, rfl⟩ := List.mem_map.mp hx
    exact pyReprList_no_nl (hs p hp)
  rw [hj]
  rfl

/-! Frame lemmas for the heap model: cells below every reference a
computation writes to are left untouched. -/

lemma take_set_of_le {α : Type} : ∀ (l : List α) (i n : Nat) (v : α), n ≤ i →
    (l.set i v).take n = l.take n := by
  intro l
  induction l with
  | nil => intro i n v _; rfl
  | cons a t ih =>
    intro i n v h
    rcases i with _ | i'
    · rw [Nat.le_zero.mp h]
      rfl
    · rcases n with _ | n'
      · rfl
      · rw [List.set_cons_succ, List.take_succ_cons, List.take_succ_cons,
          ih i' n' v (by omega)]

lemma writeH_take {h : Heap} {r n : Nat} (v : List Nat) (hn : n ≤ r) :
    (writeH h r v).take n = h.take n := take_set_of_le h r n v hn

lemma writeH_length (h : Heap) (r : Nat) (v : List Nat) :
    (writeH h r v).length = h.length := List.length_set h r v

lemma alignLoopH_frame : ∀ {fuel stop : Nat} {h : Heap} {r : Nat} {h' : Heap},
    alignLoopH fuel stop h r = some h' →
    h'.length = h.length ∧ ∀ n, n ≤ r → h'.take n = h.take n := by
  intro fuel
  induction fuel with
  | zero => intro stop h r h' hh; simp [alignLoopH] at hh
  | succ m ih =>
    intro stop h r h' hh
    rw [alignLoopH] at hh
    by_cases hc : (readH h r).getD 0 0 = stop
    · rw [if_pos hc, Option.some_inj] at hh
      rw [← hh]
      exact ⟨rfl, fun n _ => rfl⟩
    · rw [if_neg hc] at hh
      obtain ⟨hlen, htake⟩ := ih hh
      refine ⟨hlen.trans (writeH_length h r _), fun n hn => ?_⟩
      rw [htake n hn, writeH_take _ hn]

lemma alignAuxH_frame : ∀ {is : List Nat} {h : Heap} {st : List Nat} {h' : Heap},
    alignAuxH is h st = some h' → ∀ n, (∀ i ∈ is, n ≤ st.getD i 0) →
    h'.take n = h.take n ∧ h'.length = h.length := by
  intro is
  induction is with
  | nil =>
    intro h st h' hh n _
    rw [alignAuxH, Option.some_inj] at hh
    rw [← hh]
    exact ⟨rfl, rfl⟩
  | cons i rest ih =>
    intro h st h' hh n hn
    rw [alignAuxH] at hh
    rcases hal : alignLoopH 6 ((readH h (st.getD 0 0)).getD (get_center_side i) 0) h
        (st.getD i 0) with _ | h1
    · rw [hal] at hh; exact absurd hh (by simp)
    · rw [hal] at hh
      obtain ⟨hlen1, htake1⟩ := alignLoopH_frame hal
      obtain ⟨htake2, hlen2⟩ := ih hh n (fun x hx => hn x (List.mem_cons_of_mem i hx))
      refine ⟨?_, hlen2.trans hlen1⟩
      rw [htake2, htake1 n (hn i (List.mem_cons_self i rest))]

lemma rotate_centerH_frame (h : Heap) (st : List Nat) {n : Nat}
    (hn : n ≤ st.getD 0 0) :
    (rotate_centerH h st).take n = h.take n ∧ (rotate_centerH h st).length = h.length :=
  ⟨writeH_take _ hn, writeH_length h _ _⟩

lemma innerLoopH_frame : ∀ {m : Nat} {h : Heap} {st : List Nat} {r : Heap × List String},
    innerLoopH m h st = some r → ∀ n, (∀ i, i < 7 → n ≤ st.getD i 0) →
    r.1.take n = h.take n ∧ r.1.length = h.length := by
  intro m
  induction m with
  | zero =>
    intro h st r hh n _
    rw [innerLoopH, Option.some_inj] at hh
    rw [← hh]
    exact ⟨rfl, rfl⟩
  | succ k ih =>
    intro h st r hh n hn
    rw [innerLoopH] at hh
    rcases hal : align_to_centerH h st with _ | h'
    · rw [hal] at hh; exact absurd hh (by simp)
    · rw [hal] at hh
      replace hh : (match innerLoopH k (rotate_centerH h' st) st with
          | none => none
          | some r' => some (r'.1,
              if checkH h' st = true then print_stateH h' st :: r'.2 else r'.2)) = some r := hh
      rcases hrec : innerLoopH k (rotate_centerH h' st) st with _ | r'
      · rw [hrec] at hh; exact absurd hh (by simp)
      · rw [hrec] at hh
        rw [Option.some_inj] at hh
        have hmem : ∀ i ∈ List.range' 1 (NUM_PIECES - 1), n ≤ st.getD i 0 := by
          intro i hi
          obtain ⟨j, hj, rfl⟩ := List.mem_range'.mp hi
          have h7 : NUM_PIECES = 7 := rfl
          exact hn _ (by omega)
        obtain ⟨htake1, hlen1⟩ := alignAuxH_frame hal n hmem
        obtain ⟨htake2, hlen2⟩ := rotate_centerH_frame h' st (hn 0 (by omega))
        obtain ⟨htake3, hlen3⟩ := ih hrec n hn
        have hfst : r.1 = r'.1 := by rw [← hh]
        rw [hfst, htake3, htake2, htake1]
        refine ⟨rfl, ?_⟩
        rw [hlen3, hlen2, hlen1]

lemma init_stateH_spec : ∀ (layout : List Nat) (h : Heap),
    (∃ ext, (init_stateH h layout).1 = h ++ ext) ∧
    (init_stateH h layout).2.length = layout.length ∧
    ∀ r ∈ (init_stateH h layout).2, h.length ≤ r := by
  intro layout
  induction layout with
  | nil =>
    intro h
    exact ⟨⟨[], by rw [List.append_nil]; rfl⟩, rfl, fun r hr => absurd hr (List.not_mem_nil r)⟩
  | cons x rest ih =>
    intro h
    have hred : init_stateH h (x :: rest) =
        ((init_stateH (h ++ [readH h x]) rest).1,
          h.length :: (init_stateH (h ++ [readH h x]) rest).2) := rfl
    obtain ⟨⟨ext, hext⟩, hlen, hmem⟩ := ih (h ++ [readH h x])
    rw [hred]
    refine ⟨⟨readH h x :: ext, ?_⟩, by simp [hlen], ?_⟩
    · rw [hext, List.append_assoc]
      rfl
    · intro r hr
      rcases List.mem_cons.mp hr with rfl | hr'
      · exact Nat.le_refl _
      · have := hmem r hr'
        rw [List.length_append] at this
        omega

lemma runCandidateH_frame {h : Heap} {layout : List Nat} {r : Heap × List String}
    (hlen : layout.length = 7) (hr : runCandidateH h layout = some r) :
    r.1.take h.length = h ∧ h.length ≤ r.1.length := by
  obtain ⟨⟨ext, hext⟩, hslen, hmem⟩ := init_stateH_spec layout h
  have hsub : ∀ i, i < 7 → h.length ≤ (init_stateH h layout).2.getD i 0 := by
    intro i hi
    have hilt : i < (init_stateH h layout).2.length := by
      rw [hslen, hlen]
      exact hi
    exact hmem _ (getD_mem _ hilt 0)
  have hr' : innerLoopH NUM_SIDES (init_stateH h layout).1 (init_stateH h layout).2
      = some r := hr
  obtain ⟨htake, hlen'⟩ := innerLoopH_frame hr' h.length hsub
  constructor
  · rw [htake, hext, List.take_left]
  · rw [hlen', hext, List.length_append]
    omega

lemma mainH_frame : ∀ {layouts : List (List Nat)} {h : Heap} {r : Heap × List String},
    (∀ l ∈ layouts, l.length = 7) → mainH h layouts = some r →
    r.1.take h.length = h := by
  intro layouts
  induction layouts with
  | nil =>
    intro h r _ hh
    rw [mainH, Option.some_inj] at hh
    rw [← hh]
    exact List.take_length h
  | cons l ls ih =>
    intro h r hl hh
    rw [mainH] at hh
    rcases hc : runCandidateH h l with _ | r1
    · rw [hc] at hh; exact absurd hh (by simp)
    · rw [hc] at hh
      replace hh : (match mainH r1.1 ls with
          | none => none
          | some r' => some (r'.1, r1.2 ++ r'.2)) = some r := hh
      rcases hm : mainH r1.1 ls with _ | r2
      · rw [hm] at hh; exact absurd hh (by simp)
      · rw [hm] at hh
        rw [Option.some_inj] at hh
        obtain ⟨htake1, hle1⟩ := runCandidateH_frame (hl l (List.mem_cons_self l ls)) hc
        have htake2 := ih (fun x hx => hl x (List.mem_cons_of_mem l hx)) hm
        have hfst : r.1 = r2.1 := by rw [← hh]
        have hkey : r2.1.take h.length = h := by
          have h1 : r2.1.take h.length = (r2.1.take r1.1.length).take h.length := by
            rw [List.take_take, inf_eq_left.mpr hle1]
          rw [h1, htake2, htake1]
        rw [hfst]
        exact hkey

lemma checkedStates_some {layout st : BoardState} (hg : GoodState layout)
    (hr : StateRotOf st layout) (n : Nat) :
    ∃ l, checkedStates n st = some l := by
  induction n generalizing st with
  | zero => exact ⟨[], rfl⟩
  | succ m ih =>
    obtain ⟨st', hst'⟩ := align_some_of_good (goodState_of_rotOf hr hg)
    obtain ⟨l, hl⟩ := ih (stateRotOf_trans rotate_center_rotOf (stateRotOf_trans (align_rotOf hst') hr))
    refine ⟨st' :: l, ?_⟩
    rw [checkedStates, hst']
    simp only [Option.bind_eq_bind, Option.some_bind, hl]
    rfl

lemma check_piece_iff (state : BoardState) (i : Nat) :
    check_piece state i = true ↔
      (state.getD i []).getD 5 0 =
        (state.getD (if i < 6 then i + 1 else 1) []).getD 1 0 := by
  simp [check_piece, NUM_SIDES]

lemma necklaceR_length7 : ∀ l ∈ necklace_permsR [0, 1, 2, 3, 4, 5, 6], l.length = 7 := by
  intro l hl
  rw [necklace_permsR, List.mem_flatMap] at hl
  obtain ⟨i, hi, hmem⟩ := hl
  rw [List.mem_range] at hi
  have hi7 : i < 7 := hi
  obtain ⟨trailer, htr, rfl⟩ := List.mem_map.mp hmem
  have h6 : (([0, 1, 2, 3, 4, 5, 6] : List Nat).eraseIdx i).length = 6 := by
    rw [List.length_eraseIdx]
    simp [hi7]
  have htail : (([0, 1, 2, 3, 4, 5, 6] : List Nat).eraseIdx i).tail.length = 5 := by
    rw [List.length_tail, h6]
  have hlen := (perms_mem htr).length_eq
  rw [List.length_cons, List.length_cons, hlen, htail]

/-! The claims. -/

/-- Claim C1, counterexample.  On the solution state actually reached and
reported by the program — a board state of the seven fixed pieces — the
checker `check` returns `true`, while the comparison described by the claim
(trailing marking of position `i` against the marking at index 0 of
position `i+1`, encoded by `claimCheck`) fails: the code compares against
index 1 of the neighbour, not its leading index 0. -/
theorem check_index_counterexample :
    check solState = true ∧ claimCheck solState = false := by decide

/-- Claim C1, amended.  For every board state, `check(state)` returns
`True` if and only if, for each outer position `i` in 1..6, the trailing
marking (index 5) of the piece at position `i` equals the marking at index
1 of the piece at position `i+1` (wrapping position 6's neighbour to
position 1); the arrangement passes only if all six adjacency comparisons
succeed simultaneously. -/
theorem check_iff_adjacent (state : BoardState) :
    check state = true ↔
      ∀ i, 1 ≤ i → i ≤ 6 →
        (state.getD i []).getD 5 0 =
          (state.getD (if i < 6 then i + 1 else 1) []).getD 1 0 := by
  rw [check, List.all_eq_true]
  have h7 : NUM_PIECES = 7 := rfl
  constructor
  · intro h i h1 h6
    refine (check_piece_iff state i).mp (h i ?_)
    rw [List.mem_range']
    exact ⟨i - 1, by omega, by omega⟩
  · intro h x hx
    rw [List.mem_range'] at hx
    obtain ⟨j, hj, rfl⟩ := hx
    exact (check_piece_iff state _).mpr (h _ (by omega) (by omega))

/-- Claim C1 witness: the amended characterisation applied to the solution
state at position 1. -/
theorem check_iff_adjacent_witness :
    (solState.getD 1 []).getD 5 0 =
      (solState.getD (if 1 < 6 then 1 + 1 else 1) []).getD 1 0 :=
  (check_iff_adjacent solState).mp (by decide) 1 (by decide) (by decide)

/-- Claim C2: `necklace_perms` on the fixed piece table yields exactly
`840 = 7 × 5!` candidate assignments; every assignment is a permutation of
the seven (pairwise distinct) pieces — hence places each piece at exactly
one of the seven positions, a bijection from piece identities to
positions — and no assignment is yielded twice. -/
theorem necklace_perms_spec :
    (necklace_perms pieces).length = 840 ∧
    (∀ layout ∈ necklace_perms pieces, layout.Perm pieces ∧ layout.Nodup) ∧
    (necklace_perms pieces).Nodup :=
  ⟨necklace_length,
   fun _ h => ⟨necklace_mem h, ((necklace_mem h).nodup_iff).mpr pieces_nodup⟩,
   necklace_nodup⟩

/-- Claim C2 witness: the solution's candidate layout is one of the
generated assignments and is a duplicate-free permutation of the table. -/
theorem necklace_perms_spec_witness : solLayout.Perm pieces ∧ solLayout.Nodup :=
  necklace_perms_spec.2.1 solLayout solLayout_mem

/-- Claim C3: whenever `align_to_center` returns, every outer position
`i` in 1..6 has its leading marking (index 0) equal to the center piece's
marking at offset `i - 1` (the center itself is left unchanged by
alignment), and — for a piece carrying each marking exactly once — the
rotation reaching a given leading marking is unique among the six possible
rotations. -/
theorem align_to_center_spec {st st' : BoardState}
    (h : align_to_center st = some st') (hlen : st.length = 7) :
    (∀ i, 1 ≤ i → i ≤ 6 →
      (st'.getD i []).getD 0 0 = (st'.getD 0 []).getD (i - 1) 0) ∧
    st'.getD 0 [] = st.getD 0 [] ∧
    (∀ i, 1 ≤ i → i ≤ 6 → CompletePiece (st.getD i []) →
      ∀ k k', k < 6 → k' < 6 →
        (rotN k (st.getD i [])).getD 0 0 = (rotN k' (st.getD i [])).getD 0 0 →
        k = k') := by
  have h7 : NUM_PIECES = 7 := rfl
  have hcen := alignAux_center h (by decide)
  refine ⟨?_, hcen.1, fun i _ _ hp k k' hk hk' heq => head_rot_inj hp hk hk' heq⟩
  intro i h1 h6
  have hmem : i ∈ List.range' 1 (NUM_PIECES - 1) := by
    rw [List.mem_range']
    exact ⟨i - 1, by omega, by omega⟩
  have := alignAux_heads h (by decide) (by decide)
    (fun x hx => by
      rw [List.mem_range'] at hx
      obtain ⟨j, hj, rfl⟩ := hx
      rw [hlen]
      omega)
    i hmem
  rw [hcen.1, this]
  rfl

/-- Claim C3 witness: the specification applied to the solution state
(which `align_to_center` maps to itself), at position 1 and with the
uniqueness clause instantiated trivially. -/
theorem align_to_center_spec_witness :
    (solState.getD 1 []).getD 0 0 = (solState.getD 0 []).getD 0 0 ∧ 0 = 0 := by
  have hspec := align_to_center_spec
    (show align_to_center solState = some solState by decide)
    (show solState.length = 7 by decide)
  exact ⟨hspec.1 1 (by decide) (by decide),
    hspec.2.2 1 (by decide) (by decide)
      (show (solState.getD 1 []).Perm [1, 2, 3, 4, 5, 6] by decide)
      0 0 (by decide) (by decide) rfl⟩

/-- Claim C4: for a candidate whose six align-then-check passes are the
state list `l` (as described by the specification's state machine
`checkedStates`: align, check, rotate the center one step, re-align, six
times), the code's per-candidate loop `innerLoop` performs exactly those
six passes and reports exactly the passing states, in order — it never
exits early on success, and every passing ring rotation is reported. -/
theorem main_checks_all_six :
    (∀ (st : BoardState) (l : List BoardState),
      checkedStates NUM_SIDES st = some l →
      l.length = 6 ∧ innerLoop NUM_SIDES st = some (l.filter check)) ∧
    (∀ layout ∈ necklace_perms pieces, ∃ l,
      checkedStates NUM_SIDES (init_state layout) = some l) :=
  ⟨fun _ _ h => innerLoop_eq_filter h,
   fun layout hl => checkedStates_some (necklace_good hl)
     (by rw [init_state_eq]; exact stateRotOf_refl layout) NUM_SIDES⟩

/-- Claim C4 witness: the all-ones candidate, whose six checked states all
pass, so all six are reported. -/
theorem main_checks_all_six_witness :
    (List.replicate 6 onesLayout).length = 6 ∧
      innerLoop NUM_SIDES (init_state onesLayout) =
        some ((List.replicate 6 onesLayout).filter check) :=
  main_checks_all_six.1 (init_state onesLayout) (List.replicate 6 onesLayout) (by decide)

/-- Claim C5: for every piece containing each of the six marking values
exactly once (as every piece of the fixed table does, in every rotation)
and every possible center-facing value, the alignment rotation loop
terminates within six steps — fuel 6 suffices — and the result is one of
the first six rotations of the piece. -/
theorem align_loop_terminates {p : Piece} (hp : CompletePiece p)
    {stop : Nat} (hstop : stop ∈ ([1, 2, 3, 4, 5, 6] : List Nat)) :
    ∃ q, alignLoop 6 stop p = some q ∧ ∃ k, k < 6 ∧ q = rotN k p := by
  obtain ⟨q, hq⟩ := alignLoop_some_of_mem hp.length (hp.mem_iff.mpr hstop)
  exact ⟨q, hq, (alignLoop_eq_some hq).2⟩

/-- Claim C5 witness: the first piece of the table aligned to value 3. -/
theorem align_loop_terminates_witness :
    ∃ q, alignLoop 6 3 [1, 5, 3, 2, 6, 4] = some q ∧
      ∃ k, k < 6 ∧ q = rotN k [1, 5, 3, 2, 6, 4] :=
  align_loop_terminates
    (show ([1, 5, 3, 2, 6, 4] : Piece).Perm [1, 2, 3, 4, 5, 6] by decide)
    (by decide)

/-- Claim C6: the full search over the fixed built-in piece data completes
(no alignment ever diverges) and prints at least one solution line; and the
printed line sequence is unique — `mainLines` is a closed, parameterless
function of the fixed data, so every run denotes the same sequence. -/
theorem main_prints_deterministically :
    (∃ lines, mainLines = some lines ∧ 1 ≤ lines.length) ∧
    (∀ l₁ l₂, mainLines = some l₁ → mainLines = some l₂ → l₁ = l₂) := by
  obtain ⟨L, hL, hmem⟩ := mainStates_spec
  constructor
  · refine ⟨L.map print_state, ?_, ?_⟩
    · rw [mainLines, hL]
      rfl
    · rw [List.length_map]
      exact List.length_pos.mpr (List.ne_nil_of_mem hmem)
  · intro l₁ l₂ h₁ h₂
    rw [h₁, Option.some_inj] at h₂
    exact h₂

/-- Claim C6 witness: the search's line list exists and is equal to
itself under the determinism clause. -/
theorem main_prints_deterministically_witness :
    ∃ lines, mainLines = some lines ∧ lines = lines := by
  obtain ⟨⟨lines, hl, _⟩, hdet⟩ := main_prints_deterministically
  exact ⟨lines, hl, hdet lines lines hl hl⟩

/-- Claim C7: for every six-marking piece, rotating by `r ≤ 6` single
steps and then by `6 - r` steps restores the original marking sequence
(single-step rotation is a permutation of order six), and rotation counts
act modulo six. -/
theorem rotate_order_six (p : Piece) (hp : p.length = 6) :
    (∀ r, r ≤ 6 → rotN (6 - r) (rotN r p) = p) ∧
    (∀ r, rotN r p = rotN (r % 6) p) := by
  have hsix : ∀ q : Piece, q.length = 6 → rotN 6 q = q := fun q hq => rotN_six q hq
  constructor
  · intro r hr
    rw [← rotN_add]
    have : 6 - r + r = 6 := by omega
    rw [this]
    exact hsix p hp
  · intro r
    have key : ∀ (q : Nat), rotN (6 * q + r % 6) p = rotN (r % 6) p := by
      intro q
      induction q with
      | zero => rw [Nat.mul_zero, Nat.zero_add]
      | succ m ih =>
        have : 6 * (m + 1) + r % 6 = (6 * m + r % 6) + 6 := by ring
        rw [this, rotN_add, hsix p hp, ih]
    have hdm : 6 * (r / 6) + r % 6 = r := Nat.div_add_mod r 6
    conv_lhs => rw [← hdm]
    rw [key]

/-- Claim C7 witness: rotation by 2 then 4 restores `[1, 2, 3, 4, 5, 6]`,
and a count of 8 acts as 2. -/
theorem rotate_order_six_witness :
    rotN (6 - 2) (rotN 2 [1, 2, 3, 4, 5, 6]) = [1, 2, 3, 4, 5, 6] ∧
    rotN 8 ([1, 2, 3, 4, 5, 6] : Piece) = rotN (8 % 6) [1, 2, 3, 4, 5, 6] :=
  ⟨(rotate_order_six [1, 2, 3, 4, 5, 6] rfl).1 2 (by decide),
   (rotate_order_six [1, 2, 3, 4, 5, 6] rfl).2 8⟩

/-- Claim C8: every state reported by `main` belongs to a generated
candidate layout and is printed as exactly one newline-terminated line:
the seven bracketed current marking sequences concatenated in position
order 0..6 — the current rotated view of each piece (`StateRotOf`), not
its original definition — with exactly one newline character, at the end. -/
theorem reported_solution_format {S : List BoardState}
    (hS : mainStates = some S) :
    ∀ s ∈ S, ∃ layout ∈ necklace_perms pieces,
      StateRotOf s layout ∧
      s.length = 7 ∧
      print_state s = String.join (s.map pyReprList) ++ "\n" ∧
      (∃ t, print_state s = t ++ "\n" ∧ t.data.count ('\n') = 0) ∧
      (print_state s).data.count ('\n') = 1 := by
  intro s hs
  obtain ⟨layout, hlay, out, hout, hsout⟩ := runLayouts_mem hS s hs
  have hrot0 : StateRotOf (init_state layout) layout := by
    rw [init_state_eq]
    exact stateRotOf_refl layout
  have hrot : StateRotOf s layout := (innerLoop_inv hrot0 hout s hsout).2
  have hgood : GoodState s := goodState_of_rotOf hrot (necklace_good hlay)
  have hvals : ∀ p ∈ s, ∀ v ∈ p, v ∈ ([1, 2, 3, 4, 5, 6] : List Nat) := by
    intro p hp v hv
    obtain ⟨i, hi, rfl⟩ := List.mem_iff_getElem.mp hp
    have hgd : s.getD i [] = s[i] := List.getD_eq_getElem s [] hi
    have hcomp : CompletePiece s[i] := by
      rw [← hgd]
      exact hgood.2 i (by rw [← hgood.1]; exact hi)
    exact hcomp.mem_iff.mp hv
  have hjoin : (String.join (s.map pyReprList)).data.count ('\n') = 0 := by
    refine join_no_nl ?_
    intro x hx
    obtain ⟨p, hp, rfl⟩ := List.mem_map.mp hx
    exact pyReprList_no_nl (hvals p hp)
  refine ⟨layout, hlay, hrot, ?_, print_state_eq s,
    ⟨String.join (s.map pyReprList), print_state_eq s, hjoin⟩,
    print_state_one_nl hvals⟩
  rw [hrot.1, (necklace_mem hlay).length_eq, pieces_length]

/-- Claim C8 witness: the reported solution list exists and every line in
it has the stated shape. -/
theorem reported_solution_format_witness :
    ∃ S, mainStates = some S ∧ ∀ s ∈ S, s.length = 7 ∧
      (print_state s).data.count ('\n') = 1 := by
  obtain ⟨L, hL, _⟩ := mainStates_spec
  refine ⟨L, hL, fun s hs => ?_⟩
  obtain ⟨_, _, _, hlen, _, _, hone⟩ := reported_solution_format hL s hs
  exact ⟨hlen, hone⟩

/-- Claim C9: a run of `main` in the heap model never changes any heap
cell that existed before it started — in particular the cells of the
global `pieces` table — because `necklace_perms` only permutes the copied
reference list, `init_state` copies each piece's markings into freshly
allocated deques, and every mutation (`deque.rotate()`) targets a deque of
the running candidate's own board state; each candidate's state is fresh
and is discarded after its six check passes.  The second clause
instantiates this to the program's own run: the heap holding the seven
pieces, under the full necklace enumeration of the references `0..6`. -/
theorem main_preserves_pieces :
    (∀ (h : Heap) (layouts : List (List Nat)) (r : Heap × List String),
      (∀ l ∈ layouts, l.length = 7) → mainH h layouts = some r →
      r.1.take h.length = h) ∧
    (∀ r : Heap × List String,
      mainH pieces (necklace_permsR [0, 1, 2, 3, 4, 5, 6]) = some r →
      r.1.take 7 = pieces) := by
  refine ⟨fun h layouts r hl hr => mainH_frame hl hr, fun r hr => ?_⟩
  have := mainH_frame necklaceR_length7 hr
  rw [pieces_length] at this
  exact this

/-- Claim C9 witness: a one-candidate run on a one-piece heap; the run
mutates only the freshly allocated deques and leaves the original cell
intact. -/
theorem main_preserves_pieces_witness :
    (List.replicate 8 ([1, 1, 1, 1, 1, 1] : List Nat),
      List.replicate 6 ("[1, 1, 1, 1, 1, 1][1, 1, 1, 1, 1, 1][1, 1, 1, 1, 1, 1][1, 1, 1, 1, 1, 1][1, 1, 1, 1, 1, 1][1, 1, 1, 1, 1, 1][1, 1, 1, 1, 1, 1]\n" : String)).1.take
        ([[1, 1, 1, 1, 1, 1]] : Heap).length = [[1, 1, 1, 1, 1, 1]] :=
  main_preserves_pieces.1 [[1, 1, 1, 1, 1, 1]] [[0, 0, 0, 0, 0, 0, 0]] _
    (by decide) (by decide)

/-- Claim C10: along the whole per-candidate loop — the state entering
each iteration, the aligned state handed to `check` and `print_state`
(both of which only read the state), and the state after each center
rotation — every one of the seven positions holds some cyclic rotation of
the piece the layout assigned to it: the same six markings in the same
cyclic order, never reflected, extended or truncated.  The invariant is
established by `init_state` (the fresh deques equal the layout) and
preserved by `align_to_center` and `rotate_center`. -/
theorem candidate_trace_invariant {layout : List Piece} {n : Nat}
    {tr : List BoardState}
    (h : traceStates n (init_state layout) = some tr) :
    ∀ s ∈ tr, StateRotOf s layout := by
  refine traceStates_inv ?_ h
  rw [init_state_eq]
  exact stateRotOf_refl layout

/-- Claim C10 witness: the all-ones candidate's full trace, every state of
which is position-wise a rotation of the layout. -/
theorem candidate_trace_invariant_witness : StateRotOf onesLayout onesLayout :=
  candidate_trace_invariant
    (show traceStates NUM_SIDES (init_state onesLayout) =
      some (List.replicate 13 onesLayout) by decide)
    onesLayout (by decide)

end Solver
